import Mathlib

/-!
# Verification of the libjst inline sequence journal

Shallow embedding of `src/libjst/libjst/journal/inline_sequence_journal.hpp`.

The journal manages a derived sequence as an ordered list of records
`(pos, segment)` where each segment is a zero-copy slice of some source
buffer.  Machine iterators into a segment are modelled as
`(buffer identity, start index, length)` triples; journal iterators are
modelled as indices into the record list.

Symbols are modelled as natural numbers (the C++ class is a template over
an arbitrary symbol type).
-/

namespace Libjst

/-- Symbol type of the journaled sequences (template parameter in C++). -/
abbrev Sym := Nat

/-- A zero-copy half-open slice of a source buffer, modelling
`libjst::breakpoint_slice_t<source_t const>` (a `std::ranges::subrange`
over iterators into source memory).  `bufId` models the identity of the
underlying memory range so that iterator equality (pointer equality) is
expressible; `buf` is the content of that memory; the slice covers
`[start, start + len)` of `buf`. -/
structure Slice where
  bufId : Nat
  buf : List Sym
  start : Nat
  len : Nat
  deriving DecidableEq, Repr

/-- The symbol sequence a slice denotes. -/
def Slice.spell (s : Slice) : List Sym :=
  (s.buf.drop s.start).take s.len

/-- A default-constructed slice (`sequence_type{}` in C++: a subrange of
value-initialized iterators, denoting the empty sequence). -/
def Slice.null : Slice := ⟨0, [], 0, 0⟩

/-- A slice stays inside its buffer. -/
def Slice.wf (s : Slice) : Prop := s.start + s.len ≤ s.buf.length

/-- `inline_sequence_journal::record_impl`: a journal entry holding the
start position `pos` of the referenced segment in the journaled sequence
and the referenced segment itself. -/
structure record_impl where
  pos : Nat
  seg : Slice
  deriving DecidableEq, Repr

/-- `record_impl::operator==`: equal begin positions, equal begin iterators
of the segments (same memory range, same index) and equal segment sizes.
The segments are *not* compared lexicographically. -/
def record_eq (lhs rhs : record_impl) : Bool :=
  lhs.pos == rhs.pos &&
  lhs.seg.bufId == rhs.seg.bufId &&
  lhs.seg.start == rhs.seg.start &&
  lhs.seg.len == rhs.seg.len

/-- `inline_sequence_journal::breakend_impl`: a pair of a journal iterator
(index of a record) and a sequence iterator (offset inside that record's
segment). -/
structure breakend_impl where
  recIdx : Nat
  symOff : Nat
  deriving DecidableEq, Repr

/-- The integral conversion of a breakend:
`_journal_it->position() + distance(begin(_journal_it->sequence()), _sequence_it)`.
`js` is the record list of the journal the breakend points into. -/
def breakend_position (js : List record_impl) (b : breakend_impl) : Nat :=
  (js.getD b.recIdx ⟨0, Slice.null⟩).pos + b.symOff

/-- `breakend_impl::operator-`: difference of the integral conversions. -/
def breakend_sub (js : List record_impl) (lhs rhs : breakend_impl) : Int :=
  (breakend_position js lhs : Int) - (breakend_position js rhs : Int)

/-- The defaulted `breakend_impl::operator<=>`: member-wise comparison,
journal iterator first (vector iterators compare by index), then the
sequence iterator (both lie in the same record's segment whenever the
journal iterators are equal, so they compare by offset). -/
def breakend_cmp (lhs rhs : breakend_impl) : Ordering :=
  match compare lhs.recIdx rhs.recIdx with
  | Ordering.eq => compare lhs.symOff rhs.symOff
  | o => o

/-- A breakpoint is a pair of breakends
(`inline_sequence_journal::breakpoint_type`). -/
abbrev Breakpoint := breakend_impl × breakend_impl

/-- Modelled from the spec: `low_breakend(bp) → lo` (§4.1); the first
component of the breakpoint pair (header `journal_position.hpp` is not in
`src/`). -/
def low_breakend (bp : Breakpoint) : breakend_impl := bp.1

/-- Modelled from the spec: `high_breakend(bp) → hi` (§4.1); the second
component of the breakpoint pair (header not in `src/`). -/
def high_breakend (bp : Breakpoint) : breakend_impl := bp.2

/-- Modelled from the spec: `span(bp)` "in the *derived* sequence" (§4.2),
the signed distance between the high and the low breakend obtained through
the breakends' integral conversions (header not in `src/`). -/
def breakend_span (js : List record_impl) (bp : Breakpoint) : Int :=
  breakend_sub js (high_breakend bp) (low_breakend bp)

/-- The journal (`inline_sequence_journal`): owns the source and the
record list `_journal`. -/
structure inline_sequence_journal where
  srcId : Nat
  source : List Sym
  journal : List record_impl
  deriving DecidableEq, Repr

namespace inline_sequence_journal

/-- `initialize_journal()`: if the source is non-empty, one record covering
the whole source is added, followed by the sentinel record holding an
empty (default-constructed) sequence at position `|source|`.
The covering slice is `libjst::breakpoint_slice(source, to_breakpoint(...))`,
modelled from the spec as the zero-copy view of all of the source.  -/
def initialize_journal (srcId : Nat) (src : List Sym) : List record_impl :=
  (if src.isEmpty then [] else [⟨0, ⟨srcId, src, 0, src.length⟩⟩]) ++
    [⟨src.length, Slice.null⟩]

/-- The constructor `inline_sequence_journal(source)`. -/
def init (srcId : Nat) (src : List Sym) : inline_sequence_journal :=
  ⟨srcId, src, initialize_journal srcId src⟩

/-- `size()`: number of records excluding the sentinel
(`_journal.size() - 1`). -/
def size (J : inline_sequence_journal) : Nat := J.journal.length - 1

/-- `empty()`. -/
def isEmptyJ (J : inline_sequence_journal) : Bool := J.size == 0

/-- The iterator range `[begin(), end())` where `end()` is
`_journal.end() - 1`: all records except the trailing sentinel. -/
def begin_to_end (J : inline_sequence_journal) : List record_impl :=
  J.journal.dropLast

/-- `find(key)`.  As written in the source the call
`std::ranges::find(begin(), end(), key, std::ranges::less{}, &record_impl::position)`
is ill-formed (`std::ranges::find` takes no comparator); the nearest
well-formed reading drops the spurious comparator argument and performs a
linear search over `[begin(), end())` for the first record whose
`position()` equals `key`, returning `end()` (here `none`) when there is
none. -/
def find (J : inline_sequence_journal) (key : Nat) : Option record_impl :=
  J.begin_to_end.find? (fun r => r.pos == key)

/-- `split_at(breakend)`: splits the record the breakend points into at the
breakend, producing the pair of a record covering `[begin, breakend)` and a
record covering `[breakend, end)` of that record's segment.  Both halves
are breakpoint slices of the same underlying memory. -/
def split_at (js : List record_impl) (b : breakend_impl) :
    record_impl × record_impl :=
  let r := js.getD b.recIdx ⟨0, Slice.null⟩
  (⟨r.pos, ⟨r.seg.bufId, r.seg.buf, r.seg.start, b.symOff⟩⟩,
   ⟨r.pos + b.symOff,
    ⟨r.seg.bufId, r.seg.buf, r.seg.start + b.symOff, r.seg.len - b.symOff⟩⟩)

/-- `static_cast<size_type>` of a `ptrdiff_t` value: conversion to the
unsigned 64-bit size type, wrapping modulo `2^64`. -/
def castSize (z : Int) : Nat := (z % (2 : Int) ^ 64).toNat

/-- `update_positions_of_remaining_entries(journal_it, offset)`: starting
at index `k`, every record is rewritten with `position() + offset`
(computed in `ptrdiff_t` and cast back to the size type); the function
returns immediately when `offset == 0`. -/
def update_positions_of_remaining_entries
    (js : List record_impl) (k : Nat) (off : Int) : List record_impl :=
  if off = 0 then js
  else js.take k ++
    (js.drop k).map (fun r => ⟨castSize ((r.pos : Int) + off), r.seg⟩)

/-- The entries marked for insertion in `record_inline`: the low prefix
half (when its segment is non-empty) followed by a record holding the new
sequence at the low suffix position (when the insertion size is
positive). -/
def inserted_entries (js : List record_impl) (bp : Breakpoint)
    (alt : Slice) : List record_impl :=
  let lowPair := split_at js (low_breakend bp)
  (if lowPair.1.seg.len ≠ 0 then [lowPair.1] else []) ++
    (if 0 < alt.len then [⟨lowPair.2.pos, alt⟩] else [])

/-- The splice step of `record_inline`: overwrite the record at the high
anchor with the high suffix half (`force_overwrite_through`), erase the
journal range `[low anchor, high anchor)` and insert the marked entries at
the erasure point. -/
def spliced_journal (js : List record_impl) (bp : Breakpoint)
    (alt : Slice) : List record_impl :=
  let hiB := high_breakend bp
  let loB := low_breakend bp
  let js1 := js.set hiB.recIdx (split_at js hiB).2
  let js2 := js1.take loB.recIdx ++ js1.drop hiB.recIdx
  js2.take loB.recIdx ++ inserted_entries js bp alt ++ js2.drop loB.recIdx

/-- `record_inline(breakpoint, new_sequence)`: splice in the new records,
then add `insertion_size - deletion_size` to the positions of every record
from the first record past the inserted entries onward. -/
def record_inline (J : inline_sequence_journal) (bp : Breakpoint)
    (alt : Slice) : inline_sequence_journal :=
  { J with journal :=
      (update_positions_of_remaining_entries
        (spliced_journal J.journal bp alt)
        ((low_breakend bp).recIdx + (inserted_entries J.journal bp alt).length)
        ((alt.len : Int) - breakend_span J.journal bp)) }

/-- `record(breakpoint, sequence)` forwards to `record_inline`. -/
def record (J : inline_sequence_journal) (bp : Breakpoint)
    (alt : Slice) : inline_sequence_journal :=
  record_inline J bp alt

/-- `check_journal_invariants()`: first record starts at position 0, and
for every record in `[begin(), end())` the end position equals the begin
position of its successor in the full list. -/
def adjacent_ok : List record_impl → Bool
  | [] => true
  | [_] => true
  | a :: b :: rs => (a.pos + a.seg.len == b.pos) && adjacent_ok (b :: rs)

/-- `check_journal_invariants()` of the source. -/
def check_journal_invariants (js : List record_impl) : Bool :=
  match js with
  | [] => false
  | r :: _ => r.pos == 0 && adjacent_ok js

end inline_sequence_journal

open inline_sequence_journal

/-! ## Derived notions used to state the properties -/

/-- Sum of the stored segment sizes of a record list. -/
def sumLens (js : List record_impl) : Nat :=
  (js.map (fun r => r.seg.len)).sum

/-- The derived sequence `J̄`: the concatenation of the spelled segments of
all records. -/
def derivedSeq (js : List record_impl) : List Sym :=
  (js.map (fun r => r.seg.spell)).flatten

/-- The position chain of P1: starting at `p`, each record starts where
announced and the next record starts at `pos + |seg|`. -/
def chainFrom : Nat → List record_impl → Bool
  | _, [] => true
  | p, r :: rs => r.pos == p && chainFrom (p + r.seg.len) rs

/-- All slices of the record list stay inside their buffers. -/
def slices_wf (js : List record_impl) : Prop :=
  ∀ r ∈ js, r.seg.wf

/-- The last record exists and has an empty segment. -/
def last_empty (js : List record_impl) : Bool :=
  match js.getLast? with
  | some r => r.seg.len == 0
  | none => false

/-- The journal invariant maintained by construction and `record`. -/
def Inv (J : inline_sequence_journal) : Prop :=
  chainFrom 0 J.journal = true ∧ slices_wf J.journal ∧
    last_empty J.journal = true

/-- Formalization of the spec's edit semantics: replace the half-open
interval `[lo, hi)` of the derived sequence with `alt`
(insertion: `lo = hi`; deletion: `alt = []`; substitution otherwise). -/
def apply_edit (s : List Sym) (lo hi : Nat) (alt : List Sym) : List Sym :=
  s.take lo ++ alt ++ s.drop hi

/-- Folding a list of `(lo, hi, alt)` edits over a source. -/
def apply_edits (s : List Sym) : List (Nat × Nat × List Sym) → List Sym
  | [] => s
  | (lo, hi, alt) :: es => apply_edits (apply_edit s lo hi alt) es

/-- A valid `record` call: both breakends point into the journal (their
record index is in range and their symbol offset stays inside the
segment), the low breakend does not come after the high breakend, the new
sequence is a well-formed slice, and the resulting derived sequence still
fits into the size type. -/
def validCall (J : inline_sequence_journal) (bp : Breakpoint)
    (alt : Slice) : Prop :=
  (low_breakend bp).recIdx < J.journal.length ∧
  (low_breakend bp).symOff ≤
    (J.journal.getD (low_breakend bp).recIdx ⟨0, Slice.null⟩).seg.len ∧
  (high_breakend bp).recIdx < J.journal.length ∧
  (high_breakend bp).symOff ≤
    (J.journal.getD (high_breakend bp).recIdx ⟨0, Slice.null⟩).seg.len ∧
  ((low_breakend bp).recIdx < (high_breakend bp).recIdx ∨
    ((low_breakend bp).recIdx = (high_breakend bp).recIdx ∧
      (low_breakend bp).symOff ≤ (high_breakend bp).symOff)) ∧
  alt.wf ∧
  (derivedSeq J.journal).length + alt.len < 2 ^ 64

instance (J : inline_sequence_journal) (bp : Breakpoint) (alt : Slice) :
    Decidable (validCall J bp alt) := by
  unfold validCall Slice.wf; infer_instance

/-- `reachedBy srcId src es J`: the journal `J` is obtained from the
freshly constructed journal over `src` by the sequence of valid `record`
calls whose edits (in derived coordinates, with the spelled new sequence)
are listed in `es`. -/
inductive reachedBy (srcId : Nat) (src : List Sym) :
    List (Nat × Nat × List Sym) → inline_sequence_journal → Prop where
  | init : reachedBy srcId src [] (init srcId src)
  | step {es J bp alt} :
      reachedBy srcId src es J →
      validCall J bp alt →
      reachedBy srcId src
        (es ++ [(breakend_position J.journal (low_breakend bp),
                 breakend_position J.journal (high_breakend bp),
                 alt.spell)])
        (record_inline J bp alt)

/-! ## Basic lemmas about slices, sums and chains -/

theorem Slice.spell_length (s : Slice) (h : s.wf) : s.spell.length = s.len := by
  simp only [Slice.spell, List.length_take, List.length_drop]
  unfold Slice.wf at h
  omega

theorem Slice.spell_len_zero (s : Slice) (h : s.len = 0) : s.spell = [] := by
  simp [Slice.spell, h]

theorem sumLens_nil : sumLens [] = 0 := rfl

theorem sumLens_cons (r : record_impl) (js : List record_impl) :
    sumLens (r :: js) = r.seg.len + sumLens js := by
  simp [sumLens]

theorem sumLens_append (a b : List record_impl) :
    sumLens (a ++ b) = sumLens a + sumLens b := by
  simp [sumLens]

theorem sumLens_take_le (js : List record_impl) (k : Nat) :
    sumLens (js.take k) ≤ sumLens js := by
  conv_rhs => rw [← List.take_append_drop k js]
  rw [sumLens_append]
  omega

theorem derivedSeq_nil : derivedSeq [] = [] := rfl

theorem derivedSeq_cons (r : record_impl) (js : List record_impl) :
    derivedSeq (r :: js) = r.seg.spell ++ derivedSeq js := by
  simp [derivedSeq]

theorem derivedSeq_append (a b : List record_impl) :
    derivedSeq (a ++ b) = derivedSeq a ++ derivedSeq b := by
  simp [derivedSeq]

theorem derivedSeq_length (js : List record_impl) (h : slices_wf js) :
    (derivedSeq js).length = sumLens js := by
  induction js with
  | nil => rfl
  | cons r rs ih =>
    rw [derivedSeq_cons, sumLens_cons, List.length_append,
      Slice.spell_length r.seg (h r (by simp)),
      ih (fun x hx => h x (by simp [hx]))]

theorem derivedSeq_map_seg (js : List record_impl) (f : record_impl → Nat) :
    derivedSeq (js.map (fun r => ⟨f r, r.seg⟩)) = derivedSeq js := by
  induction js with
  | nil => rfl
  | cons r rs ih => simp only [List.map_cons, derivedSeq_cons, ih]

theorem sumLens_map_seg (js : List record_impl) (f : record_impl → Nat) :
    sumLens (js.map (fun r => ⟨f r, r.seg⟩)) = sumLens js := by
  induction js with
  | nil => rfl
  | cons r rs ih => simp only [List.map_cons, sumLens_cons, ih]

theorem chainFrom_cons (p : Nat) (r : record_impl) (rs : List record_impl) :
    chainFrom p (r :: rs) = (r.pos == p && chainFrom (p + r.seg.len) rs) := rfl

theorem chainFrom_append (p : Nat) (a b : List record_impl) :
    chainFrom p (a ++ b) = true ↔
      (chainFrom p a = true ∧ chainFrom (p + sumLens a) b = true) := by
  induction a generalizing p with
  | nil => simp [chainFrom, sumLens_nil]
  | cons r rs ih =>
    rw [List.cons_append, chainFrom_cons, chainFrom_cons, sumLens_cons,
      Bool.and_eq_true, Bool.and_eq_true, ih, ← Nat.add_assoc, and_assoc]

theorem chainFrom_take (p : Nat) (js : List record_impl) (k : Nat)
    (h : chainFrom p js = true) : chainFrom p (js.take k) = true := by
  have h' : chainFrom p (js.take k ++ js.drop k) = true := by
    rw [List.take_append_drop]; exact h
  exact ((chainFrom_append p _ _).1 h').1

theorem chainFrom_drop (p : Nat) (js : List record_impl) (k : Nat)
    (h : chainFrom p js = true) :
    chainFrom (p + sumLens (js.take k)) (js.drop k) = true := by
  have h' : chainFrom p (js.take k ++ js.drop k) = true := by
    rw [List.take_append_drop]; exact h
  exact ((chainFrom_append p _ _).1 h').2

/-- Under the chain invariant every record announces exactly the sum of the
segment sizes before it. -/
theorem chainFrom_pos (p : Nat) (js : List record_impl) (k : Nat)
    (h : chainFrom p js = true) (hk : k < js.length) :
    (js.getD k ⟨0, Slice.null⟩).pos = p + sumLens (js.take k) := by
  have hd := chainFrom_drop p js k h
  rw [List.getD_eq_getElem _ _ hk]
  have hdrop : js.drop k = js[k] :: js.drop (k + 1) :=
    List.drop_eq_getElem_cons hk
  rw [hdrop] at hd
  simp only [chainFrom, Bool.and_eq_true, beq_iff_eq] at hd
  exact hd.1

theorem chainFrom_mem_bounds (p : Nat) (js : List record_impl)
    (h : chainFrom p js = true) :
    ∀ r ∈ js, p ≤ r.pos ∧ r.pos ≤ p + sumLens js := by
  induction js generalizing p with
  | nil => intro r hr; cases hr
  | cons x xs ih =>
    simp only [chainFrom, Bool.and_eq_true, beq_iff_eq] at h
    intro r hr
    rcases List.mem_cons.1 hr with rfl | hr'
    · rw [h.1]; rw [sumLens_cons]; omega
    · have := ih (p + x.seg.len) h.2 r hr'
      rw [sumLens_cons]; omega

/-- Shifting all positions by `+ i - d` (with `d ≤ p + i`) moves the chain
start accordingly. -/
theorem chainFrom_shift (p i d : Nat) (js : List record_impl)
    (h : chainFrom p js = true) (hd : d ≤ p + i) :
    chainFrom (p + i - d) (js.map (fun r => ⟨r.pos + i - d, r.seg⟩)) = true := by
  induction js generalizing p with
  | nil => rfl
  | cons x xs ih =>
    simp only [chainFrom, Bool.and_eq_true, beq_iff_eq] at h
    simp only [List.map_cons, chainFrom, Bool.and_eq_true, beq_iff_eq]
    refine ⟨by rw [h.1], ?_⟩
    have := ih (p + x.seg.len) h.2 (by omega)
    have harith : p + x.seg.len + i - d = p + i - d + x.seg.len := by omega
    rw [harith] at this
    exact this

theorem castSize_eq (z : Int) (h0 : 0 ≤ z) (h1 : z < 2 ^ 64) :
    castSize z = z.toNat := by
  unfold castSize
  rw [Int.emod_eq_of_lt h0 (by exact_mod_cast h1)]

/-- Adjacency of consecutive records is the position chain anchored at the
head's own position. -/
theorem adjacent_ok_iff_chain (a : record_impl) (tl : List record_impl) :
    adjacent_ok (a :: tl) = true ↔ chainFrom a.pos (a :: tl) = true := by
  induction tl generalizing a with
  | nil => simp [adjacent_ok, chainFrom]
  | cons b tl' ih =>
    constructor
    · intro h
      have h' : a.pos + a.seg.len = b.pos ∧ adjacent_ok (b :: tl') = true := by
        simpa [adjacent_ok] using h
      rw [chainFrom_cons, Bool.and_eq_true, beq_iff_eq]
      refine ⟨rfl, ?_⟩
      rw [h'.1]
      exact (ih b).1 h'.2
    · intro h
      rw [chainFrom_cons, Bool.and_eq_true, beq_iff_eq] at h
      have hb : b.pos = a.pos + a.seg.len := by
        rw [chainFrom_cons, Bool.and_eq_true, beq_iff_eq] at h
        exact h.2.1
      have hch : chainFrom b.pos (b :: tl') = true := by
        rw [hb]; exact h.2
      have : adjacent_ok (b :: tl') = true := (ih b).2 hch
      simp [adjacent_ok, this, hb]

theorem check_journal_invariants_iff (js : List record_impl) :
    check_journal_invariants js = true ↔ (js ≠ [] ∧ chainFrom 0 js = true) := by
  cases js with
  | nil => simp [check_journal_invariants]
  | cons r rest =>
    simp only [check_journal_invariants, Bool.and_eq_true, beq_iff_eq,
      ne_eq, reduceCtorEq, not_false_eq_true, true_and]
    constructor
    · rintro ⟨h0, hadj⟩
      have := (adjacent_ok_iff_chain r rest).1 hadj
      rw [h0] at this
      exact this
    · intro hchain
      have h0 : r.pos = 0 := by
        rw [chainFrom_cons, Bool.and_eq_true, beq_iff_eq] at hchain
        exact hchain.1
      refine ⟨h0, (adjacent_ok_iff_chain r rest).2 ?_⟩
      rw [h0]
      exact hchain

/-! ## The splice decomposition of `record_inline` -/

theorem sumLens_take_mono (js : List record_impl) {j k : Nat} (h : j ≤ k) :
    sumLens (js.take j) ≤ sumLens (js.take k) := by
  have : js.take j = (js.take k).take j := by
    rw [List.take_take]
    congr 1
    omega
  rw [this]
  exact sumLens_take_le (js.take k) j

theorem sumLens_take_succ (js : List record_impl) (k : Nat)
    (hk : k < js.length) :
    sumLens (js.take (k + 1)) =
      sumLens (js.take k) + (js.getD k ⟨0, Slice.null⟩).seg.len := by
  rw [List.take_succ, List.getElem?_eq_getElem hk, sumLens_append,
    List.getD_eq_getElem _ _ hk]
  simp [sumLens]

/-- Proof-side abbreviation: the overwritten high suffix followed by the
untouched records after the high anchor. -/
def high_tail (js : List record_impl) (bp : Breakpoint) : List record_impl :=
  (split_at js (high_breakend bp)).2 :: js.drop ((high_breakend bp).recIdx + 1)

/-- Proof-side abbreviation: the deleted span in derived coordinates. -/
def span_nat (js : List record_impl) (bp : Breakpoint) : Nat :=
  breakend_position js (high_breakend bp) -
    breakend_position js (low_breakend bp)

theorem spliced_journal_eq (js : List record_impl) (bp : Breakpoint)
    (alt : Slice) (hf : (low_breakend bp).recIdx ≤ (high_breakend bp).recIdx)
    (ht : (high_breakend bp).recIdx < js.length) :
    spliced_journal js bp alt =
      js.take (low_breakend bp).recIdx ++ inserted_entries js bp alt ++
        high_tail js bp := by
  have hf' : (low_breakend bp).recIdx < js.length := lt_of_le_of_lt hf ht
  simp only [spliced_journal, high_tail]
  set f := (low_breakend bp).recIdx with hfdef
  set t := (high_breakend bp).recIdx with htdef
  set hs := (split_at js (high_breakend bp)).2 with hsdef
  have hlen_t : (js.take t).length = t := by rw [List.length_take]; omega
  have hlen_f : (js.take f).length = f := by rw [List.length_take]; omega
  have hset : js.set t hs = js.take t ++ hs :: js.drop (t + 1) := by
    rw [List.set_eq_take_append_cons_drop, if_pos ht]
  rw [hset]
  have h1 : (js.take t ++ hs :: js.drop (t + 1)).take f = js.take f := by
    rw [List.take_append_eq_append_take, hlen_t, Nat.sub_eq_zero_of_le hf,
      List.take_zero, List.append_nil, List.take_take]
    congr 1
    omega
  have h2 : (js.take t ++ hs :: js.drop (t + 1)).drop t =
      hs :: js.drop (t + 1) := by
    rw [List.drop_append_eq_append_drop, hlen_t, Nat.sub_self,
      List.drop_take, Nat.sub_self, List.take_zero, List.nil_append,
      List.drop_zero]
  rw [h1, h2]
  have h3 : (js.take f ++ hs :: js.drop (t + 1)).take f = js.take f := by
    rw [List.take_append_eq_append_take, hlen_f, Nat.sub_self,
      List.take_zero, List.append_nil, List.take_take]
    congr 1
    omega
  have h4 : (js.take f ++ hs :: js.drop (t + 1)).drop f =
      hs :: js.drop (t + 1) := by
    rw [List.drop_append_eq_append_drop, hlen_f, Nat.sub_self,
      List.drop_zero, List.drop_take, Nat.sub_self, List.take_zero,
      List.nil_append]
  rw [h3, h4]

theorem update_positions_take_drop (js : List record_impl) (k : Nat)
    (off : Int)
    (hk : ∀ r ∈ js.drop k, 0 ≤ (r.pos : Int) + off ∧
      (r.pos : Int) + off < 2 ^ 64) :
    update_positions_of_remaining_entries js k off =
      js.take k ++
        (js.drop k).map (fun r => ⟨((r.pos : Int) + off).toNat, r.seg⟩) := by
  unfold update_positions_of_remaining_entries
  by_cases hoff : off = 0
  · subst hoff
    rw [if_pos rfl]
    conv_lhs => rw [← List.take_append_drop k js]
    congr 1
    have hpt : ∀ r ∈ js.drop k,
        (fun r : record_impl =>
          (⟨((r.pos : Int) + 0).toNat, r.seg⟩ : record_impl)) r = id r := by
      intro r _
      simp
    rw [List.map_congr_left hpt, List.map_id]
  · rw [if_neg hoff]
    congr 1
    apply List.map_congr_left
    intro r hr
    rw [castSize_eq _ (hk r hr).1 (hk r hr).2]

/-- Closed form of `record_inline` on a well-formed journal and a valid
call: the records before the low anchor, the marked entries, and the high
suffix followed by the remaining records, the latter all shifted by
`insertion size - deletion size`. -/
theorem record_inline_journal_eq (J : inline_sequence_journal)
    (bp : Breakpoint) (alt : Slice) (hInv : Inv J) (hv : validCall J bp alt) :
    (record_inline J bp alt).journal =
      J.journal.take (low_breakend bp).recIdx
        ++ inserted_entries J.journal bp alt
        ++ (high_tail J.journal bp).map
            (fun r => ⟨r.pos + alt.len - span_nat J.journal bp, r.seg⟩) := by
  obtain ⟨hchain, hwf, hlast⟩ := hInv
  obtain ⟨hf, ha, ht, hb, horder, haltwf, hcap⟩ := hv
  show update_positions_of_remaining_entries
        (spliced_journal J.journal bp alt)
        ((low_breakend bp).recIdx + (inserted_entries J.journal bp alt).length)
        ((alt.len : Int) - breakend_span J.journal bp) = _
  set js := J.journal with hjs
  set f := (low_breakend bp).recIdx with hfdef
  set t := (high_breakend bp).recIdx with htdef
  set a := (low_breakend bp).symOff with hadef
  set b := (high_breakend bp).symOff with hbdef
  set rf := js.getD f ⟨0, Slice.null⟩ with hrf
  set rt := js.getD t ⟨0, Slice.null⟩ with hrt
  have hf_le_t : f ≤ t := by
    rcases horder with h | ⟨h1, h2⟩ <;> omega
  have hposf : rf.pos = sumLens (js.take f) := by
    have := chainFrom_pos 0 js f hchain hf
    rw [hrf, this, Nat.zero_add]
  have hpost : rt.pos = sumLens (js.take t) := by
    have := chainFrom_pos 0 js t hchain ht
    rw [hrt, this, Nat.zero_add]
  have h_lo_le_hi : rf.pos + a ≤ rt.pos + b := by
    rcases horder with hlt | ⟨heq, hab⟩
    · have h1 : sumLens (js.take (f + 1)) ≤ sumLens (js.take t) :=
        sumLens_take_mono js (by omega)
      have h2 : sumLens (js.take (f + 1)) = sumLens (js.take f) + rf.seg.len :=
        sumLens_take_succ js f hf
      omega
    · have hreq : rf = rt := by rw [hrf, hrt, heq]
      rw [hreq]
      omega
  have hspan : breakend_span js bp =
      ((rt.pos + b : Nat) : Int) - ((rf.pos + a : Nat) : Int) := rfl
  have hspan_nat : span_nat js bp = (rt.pos + b) - (rf.pos + a) := rfl
  -- the chain of the tail, anchored at the high position
  have h_chain_drop : chainFrom (rt.pos + rt.seg.len) (js.drop (t + 1)) = true := by
    have hd := chainFrom_drop 0 js (t + 1) hchain
    rw [Nat.zero_add, sumLens_take_succ js t ht, ← hpost] at hd
    exact hd
  have h_chain_tail : chainFrom (rt.pos + b) (high_tail js bp) = true := by
    show chainFrom (rt.pos + b)
      ((split_at js (high_breakend bp)).2 :: js.drop (t + 1)) = true
    rw [chainFrom_cons, Bool.and_eq_true, beq_iff_eq]
    constructor
    · rfl
    · show chainFrom (rt.pos + b + (rt.seg.len - b)) (js.drop (t + 1)) = true
      have harith : rt.pos + b + (rt.seg.len - b) = rt.pos + rt.seg.len := by
        omega
      rw [harith]
      exact h_chain_drop
  have hsum_all : rt.pos + rt.seg.len + sumLens (js.drop (t + 1)) = sumLens js := by
    conv_rhs => rw [← List.take_append_drop (t + 1) js]
    rw [sumLens_append, sumLens_take_succ js t ht, ← hpost]
  have hmem : ∀ r ∈ high_tail js bp,
      rt.pos + b ≤ r.pos ∧ r.pos ≤ sumLens js := by
    intro r hr
    have h1 := chainFrom_mem_bounds _ _ h_chain_tail r hr
    have h2 : sumLens (high_tail js bp) =
        (rt.seg.len - b) + sumLens (js.drop (t + 1)) := by
      show sumLens ((split_at js (high_breakend bp)).2 :: js.drop (t + 1)) = _
      rw [sumLens_cons]
      rfl
    omega
  have hdlen : (derivedSeq js).length = sumLens js := derivedSeq_length js hwf
  have hlen_f : (js.take f).length = f := by
    rw [List.length_take]
    omega
  -- decompose the spliced journal and characterize the position update
  rw [spliced_journal_eq js bp alt hf_le_t ht]
  have hlen_fe : (js.take f ++ inserted_entries js bp alt).length =
      f + (inserted_entries js bp alt).length := by
    rw [List.length_append, hlen_f]
  have hdrop_eq : (js.take f ++ inserted_entries js bp alt ++ high_tail js bp).drop
      (f + (inserted_entries js bp alt).length) = high_tail js bp :=
    List.drop_left' hlen_fe
  have hbounds : ∀ r ∈ (js.take f ++ inserted_entries js bp alt ++
        high_tail js bp).drop (f + (inserted_entries js bp alt).length),
      0 ≤ (r.pos : Int) + ((alt.len : Int) - breakend_span js bp) ∧
        (r.pos : Int) + ((alt.len : Int) - breakend_span js bp) < 2 ^ 64 := by
    rw [hdrop_eq]
    intro r hr
    have h1 := hmem r hr
    rw [hspan]
    constructor
    · omega
    · have : ((2 : Nat) ^ 64 : Int) = (2 : Int) ^ 64 := by norm_num
      omega
  rw [update_positions_take_drop _ _ _ hbounds, hdrop_eq,
    List.take_left' hlen_fe]
  congr 1
  apply List.map_congr_left
  intro r hr
  have h1 := hmem r hr
  rw [hspan, hspan_nat]
  congr 1
  omega

/-! ## Spelling lemmas for the split slices and the inserted entries -/

theorem split_spell_take (r : record_impl) (c : Nat) (hc : c ≤ r.seg.len) :
    (Slice.mk r.seg.bufId r.seg.buf r.seg.start c).spell =
      r.seg.spell.take c := by
  simp only [Slice.spell, List.take_take]
  congr 1
  omega

theorem split_spell_drop (r : record_impl) (c : Nat) :
    (Slice.mk r.seg.bufId r.seg.buf (r.seg.start + c) (r.seg.len - c)).spell =
      r.seg.spell.drop c := by
  simp only [Slice.spell, List.drop_take, List.drop_drop]

theorem inserted_entries_eq (js : List record_impl) (bp : Breakpoint)
    (alt : Slice) :
    inserted_entries js bp alt =
      (if (low_breakend bp).symOff ≠ 0
        then [⟨(js.getD (low_breakend bp).recIdx ⟨0, Slice.null⟩).pos,
               ⟨(js.getD (low_breakend bp).recIdx ⟨0, Slice.null⟩).seg.bufId,
                (js.getD (low_breakend bp).recIdx ⟨0, Slice.null⟩).seg.buf,
                (js.getD (low_breakend bp).recIdx ⟨0, Slice.null⟩).seg.start,
                (low_breakend bp).symOff⟩⟩]
        else []) ++
      (if 0 < alt.len
        then [⟨(js.getD (low_breakend bp).recIdx ⟨0, Slice.null⟩).pos +
                (low_breakend bp).symOff, alt⟩]
        else []) := rfl

theorem sumLens_inserted (js : List record_impl) (bp : Breakpoint)
    (alt : Slice) :
    sumLens (inserted_entries js bp alt) =
      (low_breakend bp).symOff + alt.len := by
  rw [inserted_entries_eq]
  by_cases h1 : (low_breakend bp).symOff ≠ 0
  · by_cases h2 : 0 < alt.len
    · rw [if_pos h1, if_pos h2, sumLens_append, sumLens_cons, sumLens_nil,
        sumLens_cons, sumLens_nil]
      dsimp only
      omega
    · rw [if_pos h1, if_neg h2, List.append_nil, sumLens_cons, sumLens_nil]
      dsimp only
      omega
  · by_cases h2 : 0 < alt.len
    · rw [if_neg h1, if_pos h2, List.nil_append, sumLens_cons, sumLens_nil]
      dsimp only
      omega
    · rw [if_neg h1, if_neg h2, List.append_nil, sumLens_nil]
      omega

theorem chainFrom_inserted (js : List record_impl) (bp : Breakpoint)
    (alt : Slice) :
    chainFrom (js.getD (low_breakend bp).recIdx ⟨0, Slice.null⟩).pos
      (inserted_entries js bp alt) = true := by
  rw [inserted_entries_eq]
  by_cases h1 : (low_breakend bp).symOff ≠ 0
  · by_cases h2 : 0 < alt.len
    · rw [if_pos h1, if_pos h2]
      simp [chainFrom_cons, chainFrom]
    · rw [if_pos h1, if_neg h2, List.append_nil]
      simp [chainFrom_cons, chainFrom]
  · by_cases h2 : 0 < alt.len
    · rw [if_neg h1, if_pos h2, List.nil_append]
      have h1' : (low_breakend bp).symOff = 0 := by omega
      simp [chainFrom_cons, chainFrom, h1']
    · rw [if_neg h1, if_neg h2, List.append_nil]
      rfl

theorem derivedSeq_inserted (js : List record_impl) (bp : Breakpoint)
    (alt : Slice)
    (ha : (low_breakend bp).symOff ≤
      (js.getD (low_breakend bp).recIdx ⟨0, Slice.null⟩).seg.len) :
    derivedSeq (inserted_entries js bp alt) =
      (js.getD (low_breakend bp).recIdx ⟨0, Slice.null⟩).seg.spell.take
          (low_breakend bp).symOff
        ++ alt.spell := by
  rw [inserted_entries_eq]
  have hsp : (Slice.mk
      (js.getD (low_breakend bp).recIdx ⟨0, Slice.null⟩).seg.bufId
      (js.getD (low_breakend bp).recIdx ⟨0, Slice.null⟩).seg.buf
      (js.getD (low_breakend bp).recIdx ⟨0, Slice.null⟩).seg.start
      (low_breakend bp).symOff).spell =
      (js.getD (low_breakend bp).recIdx ⟨0, Slice.null⟩).seg.spell.take
        (low_breakend bp).symOff :=
    split_spell_take _ _ ha
  by_cases h1 : (low_breakend bp).symOff ≠ 0
  · by_cases h2 : 0 < alt.len
    · rw [if_pos h1, if_pos h2, derivedSeq_append, derivedSeq_cons,
        derivedSeq_nil, derivedSeq_cons, derivedSeq_nil, List.append_nil,
        List.append_nil, hsp]
    · have halt : alt.spell = [] := Slice.spell_len_zero alt (by omega)
      rw [if_pos h1, if_neg h2, List.append_nil, derivedSeq_cons,
        derivedSeq_nil, List.append_nil, hsp, halt, List.append_nil]
  · have h1' : (low_breakend bp).symOff = 0 := by omega
    by_cases h2 : 0 < alt.len
    · rw [if_neg h1, if_pos h2, List.nil_append, derivedSeq_cons,
        derivedSeq_nil, List.append_nil, h1', List.take_zero,
        List.nil_append]
    · have halt : alt.spell = [] := Slice.spell_len_zero alt (by omega)
      rw [if_neg h1, if_neg h2, List.append_nil, derivedSeq_nil, h1',
        List.take_zero, halt, List.append_nil]

/-! ## Splitting the derived sequence at a breakend -/

theorem js_split_at_index (js : List record_impl) (k : Nat)
    (hk : k < js.length) :
    js = js.take k ++ (js.getD k ⟨0, Slice.null⟩) :: js.drop (k + 1) := by
  conv_lhs => rw [← List.take_append_drop k js]
  congr 1
  rw [List.drop_eq_getElem_cons hk, List.getD_eq_getElem _ _ hk]

theorem derivedSeq_take_split (js : List record_impl) (k : Nat) (off : Nat)
    (hwf : slices_wf js) (hchain : chainFrom 0 js = true)
    (hk : k < js.length)
    (hoff : off ≤ (js.getD k ⟨0, Slice.null⟩).seg.len) :
    (derivedSeq js).take ((js.getD k ⟨0, Slice.null⟩).pos + off) =
      derivedSeq (js.take k) ++
        (js.getD k ⟨0, Slice.null⟩).seg.spell.take off := by
  set r := js.getD k ⟨0, Slice.null⟩ with hrdef
  have hrmem : r ∈ js := by
    rw [hrdef, List.getD_eq_getElem _ _ hk]
    exact List.getElem_mem hk
  have hpos : r.pos = sumLens (js.take k) := by
    have := chainFrom_pos 0 js k hchain hk
    rw [hrdef, this, Nat.zero_add]
  have hlenA : (derivedSeq (js.take k)).length = sumLens (js.take k) :=
    derivedSeq_length _ (fun x hx => hwf x (List.mem_of_mem_take hx))
  have hlen_spell : r.seg.spell.length = r.seg.len :=
    Slice.spell_length _ (hwf r hrmem)
  conv_lhs => rw [js_split_at_index js k hk]
  rw [derivedSeq_append, derivedSeq_cons, List.take_append_eq_append_take,
    List.take_of_length_le (by omega), List.take_append_eq_append_take]
  have h1 : r.pos + off - (derivedSeq (js.take k)).length = off := by omega
  have h2 : off - r.seg.spell.length = 0 := by omega
  rw [h1, h2, List.take_zero, List.append_nil]

theorem derivedSeq_drop_split (js : List record_impl) (k : Nat) (off : Nat)
    (hwf : slices_wf js) (hchain : chainFrom 0 js = true)
    (hk : k < js.length)
    (hoff : off ≤ (js.getD k ⟨0, Slice.null⟩).seg.len) :
    (derivedSeq js).drop ((js.getD k ⟨0, Slice.null⟩).pos + off) =
      (js.getD k ⟨0, Slice.null⟩).seg.spell.drop off ++
        derivedSeq (js.drop (k + 1)) := by
  set r := js.getD k ⟨0, Slice.null⟩ with hrdef
  have hrmem : r ∈ js := by
    rw [hrdef, List.getD_eq_getElem _ _ hk]
    exact List.getElem_mem hk
  have hpos : r.pos = sumLens (js.take k) := by
    have := chainFrom_pos 0 js k hchain hk
    rw [hrdef, this, Nat.zero_add]
  have hlenA : (derivedSeq (js.take k)).length = sumLens (js.take k) :=
    derivedSeq_length _ (fun x hx => hwf x (List.mem_of_mem_take hx))
  have hlen_spell : r.seg.spell.length = r.seg.len :=
    Slice.spell_length _ (hwf r hrmem)
  conv_lhs => rw [js_split_at_index js k hk]
  rw [derivedSeq_append, derivedSeq_cons, List.drop_append_eq_append_drop,
    List.drop_eq_nil_of_le (by omega), List.nil_append,
    List.drop_append_eq_append_drop]
  have h1 : r.pos + off - (derivedSeq (js.take k)).length = off := by omega
  have h2 : off - r.seg.spell.length = 0 := by omega
  rw [h1, h2, List.drop_zero]

theorem last_empty_iff (js : List record_impl) :
    last_empty js = true ↔ ∃ r, js.getLast? = some r ∧ r.seg.len = 0 := by
  unfold last_empty
  cases h : js.getLast? with
  | none => simp
  | some r => simp

/-- The main step theorem: a valid `record` call on a well-formed journal
preserves the invariant, and the new derived sequence is the old one with
`[lo, hi)` replaced by the spelling of the new sequence. -/
theorem record_inline_spec (J : inline_sequence_journal) (bp : Breakpoint)
    (alt : Slice) (hInv : Inv J) (hv : validCall J bp alt) :
    Inv (record_inline J bp alt) ∧
    derivedSeq (record_inline J bp alt).journal =
      apply_edit (derivedSeq J.journal)
        (breakend_position J.journal (low_breakend bp))
        (breakend_position J.journal (high_breakend bp))
        alt.spell := by
  have hjeq := record_inline_journal_eq J bp alt hInv hv
  obtain ⟨hchain, hwf, hlast⟩ := hInv
  obtain ⟨hf, ha, ht, hb, horder, haltwf, hcap⟩ := hv
  unfold Inv
  rw [hjeq]
  set js := J.journal with hjs
  set f := (low_breakend bp).recIdx with hfdef
  set t := (high_breakend bp).recIdx with htdef
  set a := (low_breakend bp).symOff with hadef
  set b := (high_breakend bp).symOff with hbdef
  set rf := js.getD f ⟨0, Slice.null⟩ with hrf
  set rt := js.getD t ⟨0, Slice.null⟩ with hrt
  set sh := fun r : record_impl =>
    (⟨r.pos + alt.len - span_nat js bp, r.seg⟩ : record_impl) with hshdef
  have hf_le_t : f ≤ t := by
    rcases horder with h | ⟨h1, h2⟩ <;> omega
  have hposf : rf.pos = sumLens (js.take f) := by
    have := chainFrom_pos 0 js f hchain hf
    rw [hrf, this, Nat.zero_add]
  have hpost : rt.pos = sumLens (js.take t) := by
    have := chainFrom_pos 0 js t hchain ht
    rw [hrt, this, Nat.zero_add]
  have h_lo_le_hi : rf.pos + a ≤ rt.pos + b := by
    rcases horder with hlt | ⟨heq, hab⟩
    · have h1 : sumLens (js.take (f + 1)) ≤ sumLens (js.take t) :=
        sumLens_take_mono js (by omega)
      have h2 : sumLens (js.take (f + 1)) = sumLens (js.take f) + rf.seg.len :=
        sumLens_take_succ js f hf
      omega
    · have hreq : rf = rt := by rw [hrf, hrt, heq]
      rw [hreq]
      omega
  have hspan_nat : span_nat js bp = (rt.pos + b) - (rf.pos + a) := rfl
  have h_chain_drop : chainFrom (rt.pos + rt.seg.len) (js.drop (t + 1)) = true := by
    have hd := chainFrom_drop 0 js (t + 1) hchain
    rw [Nat.zero_add, sumLens_take_succ js t ht, ← hpost] at hd
    exact hd
  have h_chain_tail : chainFrom (rt.pos + b) (high_tail js bp) = true := by
    show chainFrom (rt.pos + b)
      ((split_at js (high_breakend bp)).2 :: js.drop (t + 1)) = true
    rw [chainFrom_cons, Bool.and_eq_true, beq_iff_eq]
    refine ⟨rfl, ?_⟩
    show chainFrom (rt.pos + b + (rt.seg.len - b)) (js.drop (t + 1)) = true
    have harith : rt.pos + b + (rt.seg.len - b) = rt.pos + rt.seg.len := by
      omega
    rw [harith]
    exact h_chain_drop
  have hrt_mem : rt ∈ js := by
    rw [hrt, List.getD_eq_getElem _ _ ht]
    exact List.getElem_mem ht
  have hrf_mem : rf ∈ js := by
    rw [hrf, List.getD_eq_getElem _ _ hf]
    exact List.getElem_mem hf
  have hsum_ins : sumLens (inserted_entries js bp alt) = a + alt.len :=
    sumLens_inserted js bp alt
  -- chain of the result
  have hchainR : chainFrom 0 (js.take f ++ inserted_entries js bp alt ++
      (high_tail js bp).map sh) = true := by
    rw [List.append_assoc, chainFrom_append]
    refine ⟨chainFrom_take 0 js f hchain, ?_⟩
    rw [chainFrom_append]
    constructor
    · rw [Nat.zero_add, ← hposf]
      exact chainFrom_inserted js bp alt
    · have hshift := chainFrom_shift (rt.pos + b) alt.len (span_nat js bp)
        (high_tail js bp) h_chain_tail (by rw [hspan_nat]; omega)
      have harith : rt.pos + b + alt.len - span_nat js bp =
          0 + sumLens (js.take f) + sumLens (inserted_entries js bp alt) := by
        rw [hspan_nat, hsum_ins]
        omega
      rw [← harith]
      exact hshift
  -- well-formed slices of the result
  have hwfR : slices_wf (js.take f ++ inserted_entries js bp alt ++
      (high_tail js bp).map sh) := by
    intro r hr
    rcases List.mem_append.1 hr with hr1 | hr2
    · rcases List.mem_append.1 hr1 with hrA | hrE
      · exact hwf r (List.mem_of_mem_take hrA)
      · rw [inserted_entries_eq] at hrE
        rcases List.mem_append.1 hrE with hrP | hrI
        · have hwf_rf := hwf rf hrf_mem
          unfold Slice.wf at hwf_rf
          by_cases h1 : a ≠ 0
          · rw [if_pos h1] at hrP
            rcases List.mem_singleton.1 hrP with rfl
            show rf.seg.start + a ≤ rf.seg.buf.length
            omega
          · rw [if_neg h1] at hrP
            cases hrP
        · by_cases h2 : 0 < alt.len
          · rw [if_pos h2] at hrI
            rcases List.mem_singleton.1 hrI with rfl
            exact haltwf
          · rw [if_neg h2] at hrI
            cases hrI
    · obtain ⟨q, hqmem, rfl⟩ := List.mem_map.1 hr2
      show q.seg.wf
      have hq : q ∈ (split_at js (high_breakend bp)).2 :: js.drop (t + 1) :=
        hqmem
      rcases List.mem_cons.1 hq with rfl | hqD
      · have hwf_rt := hwf rt hrt_mem
        unfold Slice.wf at hwf_rt
        show rt.seg.start + b + (rt.seg.len - b) ≤ rt.seg.buf.length
        omega
      · exact hwf q (List.mem_of_mem_drop hqD)
  -- sentinel of the result
  have hlastR : last_empty (js.take f ++ inserted_entries js bp alt ++
      (high_tail js bp).map sh) = true := by
    rw [last_empty_iff]
    obtain ⟨rl, hrl, hrl0⟩ := (last_empty_iff js).1 hlast
    have hHT_last : ∃ rx, (high_tail js bp).getLast? = some rx ∧
        rx.seg.len = 0 := by
      show ∃ rx, ((split_at js (high_breakend bp)).2 ::
        js.drop (t + 1)).getLast? = some rx ∧ rx.seg.len = 0
      rw [List.getLast?_cons]
      by_cases hdrop : js.drop (t + 1) = []
      · rw [hdrop]
        have h1 : js = js.take (t + 1) := by
          conv_lhs => rw [← List.take_append_drop (t + 1) js]
          rw [hdrop, List.append_nil]
        have h2 : js.take (t + 1) = js.take t ++ [rt] := by
          rw [List.take_succ, List.getElem?_eq_getElem ht]
          show _ ++ [_] = _ ++ [_]
          rw [← List.getD_eq_getElem js ⟨0, Slice.null⟩ ht]
        have hlast_rt : js.getLast? = some rt := by
          conv_lhs => rw [h1, h2]
          rw [List.getLast?_append]
          rfl
        have hrt0 : rt.seg.len = 0 := by
          rw [hlast_rt] at hrl
          cases hrl
          exact hrl0
        refine ⟨(split_at js (high_breakend bp)).2, rfl, ?_⟩
        show rt.seg.len - b = 0
        omega
      · cases hlget : (js.drop (t + 1)).getLast? with
        | none => exact absurd (List.getLast?_eq_none_iff.1 hlget) hdrop
        | some x =>
          have hxd : x = rl := by
            have hsplitjs : js = js.take (t + 1) ++ js.drop (t + 1) :=
              (List.take_append_drop (t + 1) js).symm
            rw [hsplitjs, List.getLast?_append, hlget, Option.or_some] at hrl
            cases hrl
            rfl
          refine ⟨_, rfl, ?_⟩
          show x.seg.len = 0
          rw [hxd]
          exact hrl0
    obtain ⟨rx, hrx, hrx0⟩ := hHT_last
    refine ⟨sh rx, ?_, ?_⟩
    · rw [List.getLast?_append, List.getLast?_map, hrx]
      rfl
    · show rx.seg.len = 0
      exact hrx0
  refine ⟨⟨hchainR, hwfR, hlastR⟩, ?_⟩
  -- the derived sequence of the result
  rw [derivedSeq_append, derivedSeq_append]
  have hDmap : derivedSeq ((high_tail js bp).map sh) =
      derivedSeq (high_tail js bp) := derivedSeq_map_seg _ _
  have hDE : derivedSeq (inserted_entries js bp alt) =
      (js.getD f ⟨0, Slice.null⟩).seg.spell.take a ++ alt.spell :=
    derivedSeq_inserted js bp alt ha
  have hDHT : derivedSeq (high_tail js bp) =
      (js.getD t ⟨0, Slice.null⟩).seg.spell.drop b ++
        derivedSeq (js.drop (t + 1)) := by
    show derivedSeq ((split_at js (high_breakend bp)).2 ::
      js.drop (t + 1)) = _
    rw [derivedSeq_cons]
    congr 1
    exact split_spell_drop rt b
  rw [hDmap, hDE, hDHT]
  unfold apply_edit
  rw [show breakend_position js (low_breakend bp) =
      (js.getD f ⟨0, Slice.null⟩).pos + a from rfl,
    show breakend_position js (high_breakend bp) =
      (js.getD t ⟨0, Slice.null⟩).pos + b from rfl,
    derivedSeq_take_split js f a hwf hchain hf ha,
    derivedSeq_drop_split js t b hwf hchain ht hb]
  simp [List.append_assoc]

/-! ## Construction and reachability -/

theorem init_inv (srcId : Nat) (src : List Sym) :
    Inv (init srcId src) ∧ derivedSeq (init srcId src).journal = src := by
  unfold Inv init initialize_journal
  by_cases h : src.isEmpty
  · have hsrc : src = [] := by
      cases src with
      | nil => rfl
      | cons x xs => simp [List.isEmpty] at h
    subst hsrc
    refine ⟨⟨rfl, ?_, rfl⟩, rfl⟩
    intro r hr
    have hr' : r = ⟨0, Slice.null⟩ := by simpa using hr
    subst hr'
    show (0 : Nat) + 0 ≤ 0
    omega
  · rw [if_neg h]
    refine ⟨⟨?_, ?_, rfl⟩, ?_⟩
    · simp [chainFrom_cons, chainFrom, Slice.null]
    · intro r hr
      rw [List.cons_append, List.nil_append] at hr
      rcases List.mem_cons.1 hr with rfl | hr2
      · show (0 : Nat) + src.length ≤ src.length
        omega
      · rcases List.mem_singleton.1 hr2 with rfl
        show (0 : Nat) + 0 ≤ 0
        omega
    · show derivedSeq [⟨0, ⟨srcId, src, 0, src.length⟩⟩,
        ⟨src.length, Slice.null⟩] = src
      rw [derivedSeq_cons, derivedSeq_cons, derivedSeq_nil]
      show (src.drop 0).take src.length ++ (Slice.null.spell ++ []) = src
      simp [Slice.spell, Slice.null]

theorem apply_edits_append (s : List Sym)
    (es : List (Nat × Nat × List Sym)) (e : Nat × Nat × List Sym) :
    apply_edits s (es ++ [e]) =
      apply_edit (apply_edits s es) e.1 e.2.1 e.2.2 := by
  induction es generalizing s with
  | nil =>
    obtain ⟨lo, hi, alt⟩ := e
    rfl
  | cons x xs ih =>
    obtain ⟨lo, hi, alt⟩ := x
    show apply_edits (apply_edit s lo hi alt) (xs ++ [e]) = _
    rw [ih]
    rfl

/-- Every reachable journal satisfies the invariant, and its derived
sequence is the source with all recorded edits applied in order. -/
theorem reachedBy_inv (srcId : Nat) (src : List Sym)
    (es : List (Nat × Nat × List Sym)) (J : inline_sequence_journal)
    (h : reachedBy srcId src es J) :
    Inv J ∧ derivedSeq J.journal = apply_edits src es := by
  induction h with
  | init => exact init_inv srcId src
  | @step es' J' bp alt hprev hvalid ih =>
    obtain ⟨hInvJ, hder⟩ := ih
    have hstep := record_inline_spec J' bp alt hInvJ hvalid
    refine ⟨hstep.1, ?_⟩
    rw [hstep.2, hder, apply_edits_append]

/-! ## Auxiliary lemmas for the claims -/

instance (s : Slice) : Decidable s.wf := by
  unfold Slice.wf
  infer_instance

instance (js : List record_impl) : Decidable (slices_wf js) := by
  unfold slices_wf
  infer_instance

instance (J : inline_sequence_journal) : Decidable (Inv J) := by
  unfold Inv
  infer_instance

/-- On a chained journal, lexicographic breakend order implies linear
offset order. -/
theorem breakend_position_mono (js : List record_impl)
    (hchain : chainFrom 0 js = true) (x y : breakend_impl)
    (hx : x.recIdx < js.length)
    (hx2 : x.symOff ≤ (js.getD x.recIdx ⟨0, Slice.null⟩).seg.len)
    (hy : y.recIdx < js.length)
    (hxy : x.recIdx < y.recIdx ∨
      (x.recIdx = y.recIdx ∧ x.symOff ≤ y.symOff)) :
    breakend_position js x ≤ breakend_position js y := by
  unfold breakend_position
  have hpx := chainFrom_pos 0 js x.recIdx hchain hx
  have hpy := chainFrom_pos 0 js y.recIdx hchain hy
  rcases hxy with hlt | ⟨heq, hoff⟩
  · have h1 : sumLens (js.take (x.recIdx + 1)) ≤ sumLens (js.take y.recIdx) :=
      sumLens_take_mono js (by omega)
    have h2 : sumLens (js.take (x.recIdx + 1)) =
        sumLens (js.take x.recIdx) +
          (js.getD x.recIdx ⟨0, Slice.null⟩).seg.len :=
      sumLens_take_succ js x.recIdx hx
    omega
  · rw [heq]
    omega

/-- A breakend inside the journal converts to an offset inside the derived
sequence. -/
theorem breakend_position_le (js : List record_impl)
    (hchain : chainFrom 0 js = true) (hwf : slices_wf js)
    (x : breakend_impl) (hx : x.recIdx < js.length)
    (hx2 : x.symOff ≤ (js.getD x.recIdx ⟨0, Slice.null⟩).seg.len) :
    breakend_position js x ≤ (derivedSeq js).length := by
  unfold breakend_position
  have hpx := chainFrom_pos 0 js x.recIdx hchain hx
  have h2 : sumLens (js.take (x.recIdx + 1)) =
      sumLens (js.take x.recIdx) +
        (js.getD x.recIdx ⟨0, Slice.null⟩).seg.len :=
    sumLens_take_succ js x.recIdx hx
  have h3 : sumLens (js.take (x.recIdx + 1)) ≤ sumLens js :=
    sumLens_take_le js (x.recIdx + 1)
  rw [derivedSeq_length js hwf]
  omega

/-- Element-wise characterization of the position update: the records
before the start index are untouched, every record from the start index
onward gets the offset added to its position (through the size cast), and
segments are never changed. -/
theorem update_positions_getD (js : List record_impl) (k : Nat) (off : Int)
    (hb : ∀ r ∈ js, r.pos < 2 ^ 64) :
    (update_positions_of_remaining_entries js k off).length = js.length ∧
    ∀ j, j < js.length →
      (update_positions_of_remaining_entries js k off).getD j
          ⟨0, Slice.null⟩ =
        if j < k then js.getD j ⟨0, Slice.null⟩
        else ⟨castSize (((js.getD j ⟨0, Slice.null⟩).pos : Int) + off),
          (js.getD j ⟨0, Slice.null⟩).seg⟩ := by
  have hcast0 : ∀ j, j < js.length →
      (⟨castSize (((js.getD j ⟨0, Slice.null⟩).pos : Int) + 0),
        (js.getD j ⟨0, Slice.null⟩).seg⟩ : record_impl) =
        js.getD j ⟨0, Slice.null⟩ := by
    intro j hj
    have hmem : js.getD j ⟨0, Slice.null⟩ ∈ js := by
      rw [List.getD_eq_getElem _ _ hj]
      exact List.getElem_mem hj
    have hlt := hb _ hmem
    have hc : castSize (((js.getD j ⟨0, Slice.null⟩).pos : Int) + 0) =
        (js.getD j ⟨0, Slice.null⟩).pos := by
      rw [Int.add_zero]
      unfold castSize
      rw [Int.emod_eq_of_lt (by positivity) (by exact_mod_cast hlt)]
      exact Int.toNat_natCast _
    rw [hc]
  unfold update_positions_of_remaining_entries
  by_cases hoff : off = 0
  · subst hoff
    rw [if_pos rfl]
    refine ⟨rfl, ?_⟩
    intro j hj
    by_cases hjk : j < k
    · rw [if_pos hjk]
    · rw [if_neg hjk, hcast0 j hj]
  · rw [if_neg hoff]
    have hlen : (js.take k ++ (js.drop k).map
        (fun r => (⟨castSize ((r.pos : Int) + off), r.seg⟩ : record_impl))).length
        = js.length := by
      rw [List.length_append, List.length_take, List.length_map,
        List.length_drop]
      omega
    refine ⟨hlen, ?_⟩
    intro j hj
    rw [List.getD_eq_getElem _ _ (by omega : j < _), List.getElem_append]
    by_cases hjk : j < k
    · have hjt : j < (js.take k).length := by
        rw [List.length_take]
        omega
      rw [dif_pos hjt, if_pos hjk, List.getElem_take,
        List.getD_eq_getElem _ _ hj]
    · have hjt : ¬ j < (js.take k).length := by
        rw [List.length_take]
        omega
      rw [dif_neg hjt, if_neg hjk, List.getElem_map, List.getElem_drop]
      have hidx : k + (j - (js.take k).length) = j := by
        rw [List.length_take]
        omega
      have hgen : ∀ (i1 i2 : Nat), i1 = i2 →
          ∀ (h1 : i1 < js.length) (h2 : i2 < js.length), js[i1] = js[i2] := by
        intro i1 i2 he
        subst he
        intro h1 h2
        rfl
      have hblt : k + (j - (js.take k).length) < js.length := by
        omega
      have hER : js[k + (j - (js.take k).length)] = js[j] :=
        hgen _ _ hidx hblt hj
      rw [List.getD_eq_getElem _ _ hj, hER]

/-! ## Claim theorems -/

/-- C1: for every journal created from a source and every sequence of valid
`record(bp, alt)` calls applied to it, the first record's position is 0,
each subsequent record's position is the previous position plus the length
of the previous segment, and the concatenated segments spell the derived
sequence obtained by applying the recorded edits to the source. -/
theorem C1_journal_invariant (srcId : Nat) (src : List Sym)
    (es : List (Nat × Nat × List Sym)) (J : inline_sequence_journal)
    (h : reachedBy srcId src es J) :
    (∀ r0, J.journal.head? = some r0 → r0.pos = 0) ∧
    (∀ k, k + 1 < J.journal.length →
      (J.journal.getD (k + 1) ⟨0, Slice.null⟩).pos =
        (J.journal.getD k ⟨0, Slice.null⟩).pos +
          ((J.journal.getD k ⟨0, Slice.null⟩).seg.spell).length) ∧
    derivedSeq J.journal = apply_edits src es := by
  obtain ⟨⟨hchain, hwf, hlast⟩, hder⟩ := reachedBy_inv srcId src es J h
  refine ⟨?_, ?_, hder⟩
  · intro r0 hr0
    cases hJ : J.journal with
    | nil =>
      rw [hJ] at hr0
      cases hr0
    | cons x rest =>
      rw [hJ] at hr0 hchain
      rw [List.head?_cons] at hr0
      cases hr0
      rw [chainFrom_cons, Bool.and_eq_true, beq_iff_eq] at hchain
      exact hchain.1
  · intro k hk
    have h1 := chainFrom_pos 0 J.journal (k + 1) hchain hk
    have h2 := chainFrom_pos 0 J.journal k hchain (by omega)
    have h3 := sumLens_take_succ J.journal k (by omega)
    have hmem : J.journal.getD k ⟨0, Slice.null⟩ ∈ J.journal := by
      rw [List.getD_eq_getElem _ _ (by omega : k < J.journal.length)]
      exact List.getElem_mem (by omega)
    have hsp := Slice.spell_length _ (hwf _ hmem)
    omega

/-- Witness for C1: a concrete journal over `[10, 11]` with one valid
substitution `[0, 1) → [12]`. -/
theorem C1_witness :
    derivedSeq (record_inline (init 1 [10, 11]) (⟨0, 0⟩, ⟨0, 1⟩)
      (⟨2, [12], 0, 1⟩ : Slice)).journal = [12, 11] := by
  have hreach : reachedBy 1 [10, 11]
      ([] ++ [(breakend_position (init 1 [10, 11]).journal
          (low_breakend ((⟨0, 0⟩, ⟨0, 1⟩) : Breakpoint)),
        breakend_position (init 1 [10, 11]).journal
          (high_breakend ((⟨0, 0⟩, ⟨0, 1⟩) : Breakpoint)),
        (⟨2, [12], 0, 1⟩ : Slice).spell)])
      (record_inline (init 1 [10, 11]) (⟨0, 0⟩, ⟨0, 1⟩) ⟨2, [12], 0, 1⟩) := by
    refine reachedBy.step ?_ ?_
    · exact reachedBy.init
    · decide
  have h := (C1_journal_invariant 1 [10, 11] _ _ hreach).2.2
  rw [h]
  decide

/-- C2 counterexample: a zero-span, empty-alternative `record` call (both
breakends at derived position 1 of the journal over `[10, 11]`) does not
fail — `record_inline` is total and performs no validation — and it
*changes* the record list (splitting the covering record in two), although
the claim demands that the record list stay unchanged. -/
theorem C2_counterexample :
    validCall (init 1 [10, 11]) (⟨0, 1⟩, ⟨0, 1⟩) Slice.null ∧
    breakend_span (init 1 [10, 11]).journal (⟨0, 1⟩, ⟨0, 1⟩) = 0 ∧
    Slice.null.len = 0 ∧
    (record_inline (init 1 [10, 11]) (⟨0, 1⟩, ⟨0, 1⟩) Slice.null).journal ≠
      (init 1 [10, 11]).journal := by
  decide

/-- C2 amended: `record_inline` performs no validation and has no error
path (out-of-range or foreign breakends are undefined behaviour, as
documented on `split_at`); a zero-span, empty-alternative call executes
normally and leaves the derived sequence unchanged, although it may split
a record and thereby change the record list. -/
theorem C2_amended_zero_span (J : inline_sequence_journal)
    (bp : Breakpoint) (alt : Slice) (hInv : Inv J) (hv : validCall J bp alt)
    (hspan : breakend_position J.journal (low_breakend bp) =
      breakend_position J.journal (high_breakend bp))
    (halt : alt.len = 0) :
    derivedSeq (record_inline J bp alt).journal = derivedSeq J.journal := by
  have h := (record_inline_spec J bp alt hInv hv).2
  rw [h, ← hspan, Slice.spell_len_zero alt halt]
  unfold apply_edit
  rw [List.append_nil, List.take_append_drop]

/-- Witness for C2 amended: the counterexample's call leaves the derived
sequence `[10, 11]` unchanged. -/
theorem C2_witness :
    derivedSeq (record_inline (init 1 [10, 11]) (⟨0, 1⟩, ⟨0, 1⟩)
      Slice.null).journal = derivedSeq (init 1 [10, 11]).journal :=
  C2_amended_zero_span (init 1 [10, 11]) (⟨0, 1⟩, ⟨0, 1⟩) Slice.null
    (by decide) (by decide) (by decide) (by decide)

/-- C3 (code bug): on the journal over `[10, 10, 10, 10]` the single
non-sentinel entry contains key 2 (its position is ≤ 2 and 2 lies before
its end), yet `find` — a linear search for an entry whose position *equals*
the key, from an ill-formed call site — returns `end()` (`none`) instead of
that entry, contradicting its own documentation and the spec. -/
theorem C3_find_code_bug :
    find (init 1 [10, 10, 10, 10]) 2 = none ∧
    (init 1 [10, 10, 10, 10]).begin_to_end.length = 1 ∧
    ((init 1 [10, 10, 10, 10]).begin_to_end.getD 0 ⟨0, Slice.null⟩).pos ≤ 2 ∧
    2 < ((init 1 [10, 10, 10, 10]).begin_to_end.getD 0 ⟨0, Slice.null⟩).pos +
        ((init 1 [10, 10, 10, 10]).begin_to_end.getD 0
          ⟨0, Slice.null⟩).seg.len := by
  decide

/-- C4 counterexample: constructing a journal from the *empty* source does
not produce a covering segment: the underlying list holds only the
sentinel, and the number of logical entries is 0, not 1. -/
theorem C4_counterexample :
    (init 7 []).size = 0 ∧ ¬ ((init 7 []).size = 1) ∧
    (init 7 []).journal = [⟨0, Slice.null⟩] := by
  decide

/-- C4 amended: for a non-empty source the underlying list holds exactly
one segment covering all of the source plus the trailing sentinel and the
logical size is 1; for the empty source only the sentinel is present and
the logical size is 0.  In both cases the derived sequence equals the
source. -/
theorem C4_amended_init (srcId : Nat) (src : List Sym) :
    (init srcId src).size = (if src.isEmpty then 0 else 1) ∧
    (init srcId src).journal =
      (if src.isEmpty then [] else [⟨0, ⟨srcId, src, 0, src.length⟩⟩]) ++
        [⟨src.length, Slice.null⟩] ∧
    derivedSeq (init srcId src).journal = src := by
  refine ⟨?_, rfl, (init_inv srcId src).2⟩
  unfold size init initialize_journal
  by_cases h : src.isEmpty <;> simp [h]

/-- C5 counterexample: the breakend at the end of record 0 and the
breakend at the start of record 1 of the journal over `[10, 11]` (both
valid breakends of that journal) have *equal* linear offsets, yet the
defaulted three-way comparison ranks the first strictly less — the
comparison is lexicographic by (record, offset within record), not a
strict order by linear offset. -/
theorem C5_counterexample :
    ¬ ((breakend_cmp ⟨0, 2⟩ ⟨1, 0⟩ = Ordering.lt) ↔
      breakend_position (init 1 [10, 11]).journal ⟨0, 2⟩ <
        breakend_position (init 1 [10, 11]).journal ⟨1, 0⟩) ∧
    breakend_cmp ⟨0, 2⟩ ⟨1, 0⟩ = Ordering.lt ∧
    breakend_position (init 1 [10, 11]).journal ⟨0, 2⟩ =
      breakend_position (init 1 [10, 11]).journal ⟨1, 0⟩ ∧
    (init 1 [10, 11]).journal.length = 2 ∧
    2 ≤ ((init 1 [10, 11]).journal.getD 0 ⟨0, Slice.null⟩).seg.len := by
  decide

/-- C5 amended: the defaulted three-way comparison is lexicographic by
(record index, offset inside the record); on a chained journal it refines
the linear-offset order — `lt` implies offset ≤ offset, and `eq` holds
exactly for identical breakends — and subtraction yields the signed
difference of the linear offsets. -/
theorem C5_amended_breakend_order (J : inline_sequence_journal)
    (x y : breakend_impl) (hInv : Inv J)
    (hx : x.recIdx < J.journal.length)
    (hx2 : x.symOff ≤ (J.journal.getD x.recIdx ⟨0, Slice.null⟩).seg.len)
    (hy : y.recIdx < J.journal.length)
    (hy2 : y.symOff ≤ (J.journal.getD y.recIdx ⟨0, Slice.null⟩).seg.len) :
    (breakend_cmp x y = Ordering.lt →
      breakend_position J.journal x ≤ breakend_position J.journal y) ∧
    (breakend_cmp x y = Ordering.eq ↔ x = y) ∧
    breakend_sub J.journal x y =
      (breakend_position J.journal x : Int) -
        (breakend_position J.journal y : Int) := by
  obtain ⟨hchain, -, -⟩ := hInv
  refine ⟨?_, ?_, rfl⟩
  · intro hlt
    unfold breakend_cmp at hlt
    cases hc : compare x.recIdx y.recIdx with
    | lt =>
      have hrec := Nat.compare_eq_lt.1 hc
      exact breakend_position_mono J.journal hchain x y hx hx2 hy
        (Or.inl hrec)
    | eq =>
      rw [hc] at hlt
      have hrec := Nat.compare_eq_eq.1 hc
      have hoff := Nat.compare_eq_lt.1 hlt
      exact breakend_position_mono J.journal hchain x y hx hx2 hy
        (Or.inr ⟨hrec, by omega⟩)
    | gt =>
      rw [hc] at hlt
      cases hlt
  · constructor
    · intro he
      unfold breakend_cmp at he
      cases hc : compare x.recIdx y.recIdx with
      | lt =>
        rw [hc] at he
        cases he
      | eq =>
        rw [hc] at he
        have h1 := Nat.compare_eq_eq.1 hc
        have h2 := Nat.compare_eq_eq.1 he
        cases x
        cases y
        simp_all
      | gt =>
        rw [hc] at he
        cases he
    · intro he
      subst he
      unfold breakend_cmp
      rw [show compare x.recIdx x.recIdx = Ordering.eq from
        Nat.compare_eq_eq.2 rfl]
      exact Nat.compare_eq_eq.2 rfl

/-- Witness for C5 amended: two valid breakends of the journal over
`[10, 11]` with the comparison and subtraction evaluated. -/
theorem C5_witness :
    breakend_position (init 1 [10, 11]).journal ⟨0, 1⟩ ≤
      breakend_position (init 1 [10, 11]).journal ⟨1, 0⟩ ∧
    breakend_sub (init 1 [10, 11]).journal ⟨0, 1⟩ ⟨1, 0⟩ =
      (breakend_position (init 1 [10, 11]).journal ⟨0, 1⟩ : Int) -
        (breakend_position (init 1 [10, 11]).journal ⟨1, 0⟩ : Int) := by
  have h := C5_amended_breakend_order (init 1 [10, 11]) ⟨0, 1⟩ ⟨1, 0⟩
    (by decide) (by decide) (by decide) (by decide) (by decide)
  exact ⟨h.1 (by decide), h.2.2⟩

/-- C6: after construction and after every valid `record` call, the last
record of the underlying journal is a sentinel with an empty segment whose
position equals the derived sequence length, and it is excluded from
`size()` and from the range `[begin(), end())`. -/
theorem C6_sentinel_invariant (srcId : Nat) (src : List Sym)
    (es : List (Nat × Nat × List Sym)) (J : inline_sequence_journal)
    (h : reachedBy srcId src es J) :
    (∃ r, J.journal.getLast? = some r ∧ r.seg.len = 0 ∧
      r.pos = (derivedSeq J.journal).length) ∧
    J.size = J.journal.length - 1 ∧
    J.begin_to_end = J.journal.dropLast := by
  obtain ⟨⟨hchain, hwf, hlast⟩, -⟩ := reachedBy_inv srcId src es J h
  refine ⟨?_, rfl, rfl⟩
  obtain ⟨r, hr, hr0⟩ := (last_empty_iff _).1 hlast
  refine ⟨r, hr, hr0, ?_⟩
  have hne : J.journal ≠ [] := by
    intro hnil
    rw [hnil] at hr
    cases hr
  have hlen_pos : J.journal.length - 1 < J.journal.length := by
    cases hJ : J.journal with
    | nil => exact absurd hJ hne
    | cons x xs => simp
  have hr_idx : J.journal.getD (J.journal.length - 1) ⟨0, Slice.null⟩ = r := by
    rw [List.getD_eq_getElem _ _ hlen_pos]
    have hg := List.getLast?_eq_getElem? J.journal
    rw [hr, List.getElem?_eq_getElem hlen_pos] at hg
    cases hg
    rfl
  have hp := chainFrom_pos 0 J.journal (J.journal.length - 1) hchain hlen_pos
  have hsum := sumLens_take_succ J.journal (J.journal.length - 1) hlen_pos
  have h2 : J.journal.length - 1 + 1 = J.journal.length := by omega
  rw [h2, List.take_length] at hsum
  rw [hr_idx] at hsum hp
  rw [derivedSeq_length _ hwf]
  omega

/-- Witness for C6 at the freshly constructed journal over `[10, 11]`. -/
theorem C6_witness :
    ∃ r, (init 1 [10, 11]).journal.getLast? = some r ∧ r.seg.len = 0 ∧
      r.pos = (derivedSeq (init 1 [10, 11]).journal).length :=
  (C6_sentinel_invariant 1 [10, 11] [] (init 1 [10, 11]) reachedBy.init).1

/-- C7 counterexample: deleting `[1, 2)` from the journal over `[10, 11]`
(a valid call) leaves the record at index 1 with an empty segment directly
before the (empty) sentinel at index 2 — two adjacent records with empty
segments, so the write path does not merge/normalize. -/
theorem C7_counterexample :
    validCall (init 1 [10, 11]) (⟨0, 1⟩, ⟨0, 2⟩) Slice.null ∧
    2 < (record_inline (init 1 [10, 11]) (⟨0, 1⟩, ⟨0, 2⟩)
      Slice.null).journal.length ∧
    ((record_inline (init 1 [10, 11]) (⟨0, 1⟩, ⟨0, 2⟩)
      Slice.null).journal.getD 1 ⟨0, Slice.null⟩).seg.len = 0 ∧
    ((record_inline (init 1 [10, 11]) (⟨0, 1⟩, ⟨0, 2⟩)
      Slice.null).journal.getD 2 ⟨0, Slice.null⟩).seg.len = 0 := by
  decide

/-- C7 amended: the write path performs no merging of empty records;
adjacent empty segments can occur after a valid call.  The normalization
that *is* maintained on every write is the source's own
`check_journal_invariants`: the first position is 0 and every record ends
exactly where its successor begins. -/
theorem C7_amended_position_chain (J : inline_sequence_journal)
    (bp : Breakpoint) (alt : Slice) (hInv : Inv J)
    (hv : validCall J bp alt) :
    check_journal_invariants (record_inline J bp alt).journal = true := by
  obtain ⟨hchain, -, hlast⟩ := (record_inline_spec J bp alt hInv hv).1
  rw [check_journal_invariants_iff]
  obtain ⟨r, hr, -⟩ := (last_empty_iff _).1 hlast
  refine ⟨?_, hchain⟩
  intro hnil
  rw [hnil] at hr
  cases hr

/-- Witness for C7 amended at the counterexample's deletion. -/
theorem C7_witness :
    check_journal_invariants (record_inline (init 1 [10, 11])
      (⟨0, 1⟩, ⟨0, 2⟩) Slice.null).journal = true :=
  C7_amended_position_chain (init 1 [10, 11]) (⟨0, 1⟩, ⟨0, 2⟩) Slice.null
    (by decide) (by decide)

/-- C8: `record_inline` updates the spliced journal by adding
`insertion size − deletion size` (through the size-type cast) to the
position of every record from the first record after the newly inserted
entries onward — the trailing sentinel included, being the last record —
and changes no other record and no segment. -/
theorem C8_update_positions (J : inline_sequence_journal) (bp : Breakpoint)
    (alt : Slice)
    (hb : ∀ r ∈ spliced_journal J.journal bp alt, r.pos < 2 ^ 64) :
    (record_inline J bp alt).journal.length =
      (spliced_journal J.journal bp alt).length ∧
    ∀ j, j < (spliced_journal J.journal bp alt).length →
      (record_inline J bp alt).journal.getD j ⟨0, Slice.null⟩ =
        if j < (low_breakend bp).recIdx +
            (inserted_entries J.journal bp alt).length
        then (spliced_journal J.journal bp alt).getD j ⟨0, Slice.null⟩
        else ⟨castSize
            ((((spliced_journal J.journal bp alt).getD j
                ⟨0, Slice.null⟩).pos : Int) +
              ((alt.len : Int) - breakend_span J.journal bp)),
          ((spliced_journal J.journal bp alt).getD j ⟨0, Slice.null⟩).seg⟩ :=
  update_positions_getD (spliced_journal J.journal bp alt)
    ((low_breakend bp).recIdx + (inserted_entries J.journal bp alt).length)
    ((alt.len : Int) - breakend_span J.journal bp) hb

/-- Witness for C8: inserting `[12]` at derived position 1 of the journal
over `[10, 11]` shifts the sentinel (record index 3 of the spliced
journal, past the two inserted entries) from position 2 to position 3. -/
theorem C8_witness :
    (record_inline (init 1 [10, 11]) (⟨0, 1⟩, ⟨0, 1⟩)
      (⟨2, [12], 0, 1⟩ : Slice)).journal.getD 3 ⟨0, Slice.null⟩ =
      ⟨3, Slice.null⟩ := by
  have h := (C8_update_positions (init 1 [10, 11]) (⟨0, 1⟩, ⟨0, 1⟩)
    ⟨2, [12], 0, 1⟩ (by decide)).2 3 (by decide)
  rw [h]
  decide

/-- C9: applying an edit and then the inverse edit — recording the
original symbols of `[lo, hi)` back over the interval `[lo, lo + |alt|)`
they were replaced by — restores the original derived sequence, and the
restored journal again satisfies the P1 position chain.  (Substitutions
are the special case `lo < hi`, `alt` non-empty.) -/
theorem C9_substitution_undo (J : inline_sequence_journal)
    (bp bp2 : Breakpoint) (alt alt2 : Slice)
    (hInv : Inv J) (hv : validCall J bp alt)
    (hv2 : validCall (record_inline J bp alt) bp2 alt2)
    (hlo2 : breakend_position (record_inline J bp alt).journal
        (low_breakend bp2) =
      breakend_position J.journal (low_breakend bp))
    (hhi2 : breakend_position (record_inline J bp alt).journal
        (high_breakend bp2) =
      breakend_position J.journal (low_breakend bp) + alt.len)
    (hspell : alt2.spell =
      ((derivedSeq J.journal).drop
          (breakend_position J.journal (low_breakend bp))).take
        (breakend_position J.journal (high_breakend bp) -
          breakend_position J.journal (low_breakend bp))) :
    derivedSeq (record_inline (record_inline J bp alt) bp2 alt2).journal =
      derivedSeq J.journal ∧
    chainFrom 0 (record_inline (record_inline J bp alt) bp2 alt2).journal
      = true := by
  have h1 := record_inline_spec J bp alt hInv hv
  have h2 := record_inline_spec (record_inline J bp alt) bp2 alt2 h1.1 hv2
  refine ⟨?_, h2.1.1⟩
  obtain ⟨hchain, hwf, -⟩ := hInv
  obtain ⟨hf, ha, ht, hb, horder, haltwf, -⟩ := hv
  have hlohi : breakend_position J.journal (low_breakend bp) ≤
      breakend_position J.journal (high_breakend bp) :=
    breakend_position_mono J.journal hchain _ _ hf ha ht horder
  have hhile : breakend_position J.journal (high_breakend bp) ≤
      (derivedSeq J.journal).length :=
    breakend_position_le J.journal hchain hwf _ ht hb
  have hspl : alt.spell.length = alt.len := Slice.spell_length alt haltwf
  rw [h2.2, hlo2, hhi2, h1.2, hspell]
  set s := derivedSeq J.journal with hsdef
  set lo := breakend_position J.journal (low_breakend bp) with hlodef
  set hi := breakend_position J.journal (high_breakend bp) with hhidef
  unfold apply_edit
  have hlenA : (s.take lo).length = lo := by
    rw [List.length_take]
    omega
  have hAB : (s.take lo ++ alt.spell).length = lo + alt.len := by
    rw [List.length_append, hlenA, hspl]
  have htake : (s.take lo ++ alt.spell ++ s.drop hi).take lo = s.take lo := by
    rw [List.append_assoc, List.take_append_eq_append_take, hlenA,
      Nat.sub_self, List.take_zero, List.append_nil,
      List.take_take]
    congr 1
    omega
  have hdrop : (s.take lo ++ alt.spell ++ s.drop hi).drop (lo + alt.len) =
      s.drop hi := List.drop_left' hAB
  rw [htake, hdrop]
  have hdd : ((s.drop lo).take (hi - lo)) ++ s.drop hi = s.drop lo := by
    conv_rhs => rw [← List.take_append_drop (hi - lo) (s.drop lo)]
    congr 1
    rw [List.drop_drop]
    congr 1
    omega
  rw [List.append_assoc, hdd, List.take_append_drop]

/-- Witness for C9: substitute `[0, 1) → [12]` on the journal over
`[10, 11]`, then record the original symbol `[10]` back over `[0, 1)`;
the derived sequence is `[10, 11]` again. -/
theorem C9_witness :
    derivedSeq (record_inline (record_inline (init 1 [10, 11])
        (⟨0, 0⟩, ⟨0, 1⟩) ⟨2, [12], 0, 1⟩) (⟨0, 0⟩, ⟨0, 1⟩)
        (⟨3, [10], 0, 1⟩ : Slice)).journal =
      derivedSeq (init 1 [10, 11]).journal :=
  (C9_substitution_undo (init 1 [10, 11]) (⟨0, 0⟩, ⟨0, 1⟩) (⟨0, 0⟩, ⟨0, 1⟩)
    ⟨2, [12], 0, 1⟩ ⟨3, [10], 0, 1⟩ (by decide) (by decide) (by decide)
    (by decide) (by decide) (by decide)).1

/-- C10: record equality is identity-based — two records compare equal
exactly when they have the same position and their segments start at the
same index of the same underlying memory range with the same length — and
two records spelling identical symbol sequences from different memory
ranges compare unequal (here: offsets 0 and 1 of the buffer `[10, 10]`,
both spelling `[10]`). -/
theorem C10_record_equality :
    (∀ lhs rhs : record_impl, record_eq lhs rhs = true ↔
      (lhs.pos = rhs.pos ∧ lhs.seg.bufId = rhs.seg.bufId ∧
        lhs.seg.start = rhs.seg.start ∧ lhs.seg.len = rhs.seg.len)) ∧
    ((⟨0, ⟨1, [10, 10], 0, 1⟩⟩ : record_impl).seg.spell =
      (⟨0, ⟨1, [10, 10], 1, 1⟩⟩ : record_impl).seg.spell ∧
     record_eq ⟨0, ⟨1, [10, 10], 0, 1⟩⟩ ⟨0, ⟨1, [10, 10], 1, 1⟩⟩ = false) := by
  constructor
  · intro lhs rhs
    unfold record_eq
    simp [Bool.and_eq_true, and_assoc]
  · decide

end Libjst
